import Mathlib

/-!
# A verification model of the markupever tree core

This file gives a shallow embedding, in Lean, of the parts of the
markupever repository that its specification talks about:

* `Unitree` — the arena tree `UNITree` of `src/unitree/lib.rs`
  (`Item`, `detach`, `append`, `prepend`, `insert_before`,
  `insert_after`, `reparent_append`, `reparent_prepend`).
* `UnitreeV2` — the variant arena of `src/unitree/src/lib.rs`
  (`Index::new` / `Index::into_usize`, `get`, `orphan`, `root`).
* `Treedom` — the DOM layer of `src/treedom/src/treedom.rs`
  (namespace bookkeeping on `append` / `detach`) and the node data of
  `src/treedom/src/data.rs` (`Element`, attribute handling, `PartialEq`).
* `DomParser` — the tree-sink callbacks of `src/src/dom/parser.rs`
  (`create_element`, `append_doctype_to_document`, `append`).
* `MatchingElement` — the selector `Element` adapter of
  `src/matching/src/element.rs` (`is_empty`).
* `Bridge` — the option constructors of `src/src/bridge/builder.rs`
  (`quirks_mode_from_u8`, `PyRawHtmlOptions::new`).

Modelling conventions:

* Rust `usize` arena indices are `Nat`; `Index(NonZeroUsize)` is kept
  explicit only where its encoding matters (in `UnitreeV2`, and the
  `Unitree.Index` round trip), elsewhere the tree operations work
  directly on the `usize` positions obtained from `Index::into_usize`.
* interned atoms (`LocalName`, `Namespace`, `Prefix` and attribute
  value tendrils) are modelled by `Nat` identifiers; their derived
  `Ord` is the order on the identifiers.  Text tendril contents, whose
  claims are about concatenation, are modelled by `String`.
* a Rust function that can panic (a failed `assert!`, `unwrap` or
  out-of-bounds indexing) is modelled as an `Option`-returning
  function; `none` is a panic.
* mutation through `NonNull` pointers is modelled by explicit state
  passing over the item list, applying the writes in source order.
-/

namespace Markup

/-- An interned atom (`LocalName`, `Prefix`, `Namespace`, or an
attribute-value tendril), identified by its intern id. -/
abbrev Atom := Nat

/-- Rust `markup5ever::QualName { prefix, ns, local }`.  `pfx` is the
`prefix` field (the word itself cannot be a Lean identifier). -/
structure QualName where
  pfx : Option Atom
  ns : Atom
  loc : Atom
deriving DecidableEq, Repr

/-- Rust `Ordering`-valued comparison of `usize`/atom ids, the model of
`Ord::cmp` on interned atoms. -/
def natCmp (a b : Nat) : Ordering :=
  if a < b then .lt else if a = b then .eq else .gt

/-- Derived `Ord` on `Option<T>`: `None` sorts before `Some`. -/
def optCmp (a b : Option Atom) : Ordering :=
  match a, b with
  | none, none => .eq
  | none, some _ => .lt
  | some _, none => .gt
  | some x, some y => natCmp x y

/-- The derived lexicographic `Ord` of `QualName`, field by field. -/
def QualName.cmp (a b : QualName) : Ordering :=
  (optCmp a.pfx b.pfx).then ((natCmp a.ns b.ns).then (natCmp a.loc b.loc))

/-- One attribute entry `(QualName, AtomicTendril)`. -/
structure Attr where
  name : QualName
  value : Atom
deriving DecidableEq, Repr

/-- The derived lexicographic `Ord` of the pair `(QualName, value)`,
used by `binary_search` in `Element::eq`. -/
def Attr.cmp (a b : Attr) : Ordering :=
  (QualName.cmp a.name b.name).then (natCmp a.value b.value)

/-- Rust `treedom::data::Doctype`. -/
structure Doctype where
  name : String
  public_id : String
  system_id : String
deriving DecidableEq, Repr

/-- Rust `treedom::data::Comment`. -/
structure Comment where
  contents : String
deriving DecidableEq, Repr

/-- Rust `treedom::data::Text`. -/
structure Text where
  contents : String
deriving DecidableEq, Repr

/-- Rust `treedom::data::Element` (the attribute caches of
`ElementAttributeTrigger` are lazily recomputed views of `attrs` and
are not part of the state). -/
structure Element where
  name : QualName
  attrs : List Attr
  template : Bool
  mathml_annotation_xml_integration_point : Bool
deriving DecidableEq, Repr

/-- Rust `treedom::data::ProcessingInstruction`. -/
structure ProcessingInstruction where
  data : String
  target : String
deriving DecidableEq, Repr

/-- Rust `treedom::data::NodeData`, the tagged node variant. -/
inductive NodeData where
  | document : NodeData
  | doctype : Doctype → NodeData
  | comment : Comment → NodeData
  | text : Text → NodeData
  | element : Element → NodeData
  | processingInstruction : ProcessingInstruction → NodeData
deriving DecidableEq, Repr

/-- Rust `NodeData::text` accessor. -/
def NodeData.text? : NodeData → Option Text
  | .text t => some t
  | _ => none

/-- Rust `NodeData::element` accessor. -/
def NodeData.element? : NodeData → Option Element
  | .element e => some e
  | _ => none

/-- Rust `NodeData::is_text`. -/
def NodeData.is_text (d : NodeData) : Bool := d.text?.isSome

/-- Rust `NodeData::is_element`. -/
def NodeData.is_element (d : NodeData) : Bool := d.element?.isSome

end Markup

namespace Unitree

/-- Rust `unitree::Index` of `src/unitree/lib.rs`: a `NonZeroUsize` wrapper;
`val` is the stored non-zero value. -/
structure Index where
  val : Nat
deriving DecidableEq, Repr

/-- Rust `Index::new(n)` stores `n + 1` (`NonZeroUsize::new_unchecked(n + 1)`). -/
def Index.new (n : Nat) : Index := ⟨n + 1⟩

/-- Rust `Index::into_usize` of `src/unitree/lib.rs`: `self.0.get() - 1`. -/
def Index.into_usize (i : Index) : Nat := i.val - 1

/-- Rust `unitree::Item<T>`: parent / sibling / children links plus the
value.  Links hold the `usize` arena positions. -/
structure Item (α : Type) where
  parent : Option Nat
  prev_sibling : Option Nat
  next_sibling : Option Nat
  children : Option (Nat × Nat)
  value : α
deriving DecidableEq, Repr

/-- Rust `Item::new(value)`: all links empty. -/
def Item.new (value : α) : Item α :=
  { parent := none, prev_sibling := none, next_sibling := none,
    children := none, value := value }

/-- Rust `Item::last_children`: second component of `children`. -/
def Item.last_children (it : Item α) : Option Nat := it.children.map (·.2)

/-- Rust `Item::first_children`: first component of `children`. -/
def Item.first_children (it : Item α) : Option Nat := it.children.map (·.1)

/-- Rust `unitree::UNITree<T>`: the arena vector of items. -/
structure UNITree (α : Type) where
  vec : List (Item α)
deriving DecidableEq, Repr

/-- Rust `UNITree::new(root)`. -/
def UNITree.new (root : α) : UNITree α := ⟨[Item.new root]⟩

/-- Rust `UNITree::len`. -/
def UNITree.len (t : UNITree α) : Nat := t.vec.length

/-- Rust `UNITree::get` (bounds-checked read of the item at a `usize`
position). -/
def UNITree.get (t : UNITree α) (i : Nat) : Option (Item α) := t.vec[i]?

/-- Rust `UNITree::root_index` is `Index::default() = Index::new(0)`, i.e.
`usize` position `0`. -/
def UNITree.root_index : Nat := 0

/-- Rust `UNITree::orphan(value)`: push a fresh unlinked item, returning the
updated tree and the new item's position (`Index::new(vec.len())`). -/
def UNITree.orphan (t : UNITree α) (value : α) : UNITree α × Nat :=
  (⟨t.vec ++ [Item.new value]⟩, t.vec.length)

/-- A panicking indexed write `self.vec[i].as_mut().… = …`: `none` when
`i` is out of bounds. -/
def UNITree.setItem (t : UNITree α) (i : Nat) (f : Item α → Item α) :
    Option (UNITree α) :=
  match t.vec[i]? with
  | none => none
  | some it => some ⟨t.vec.set i (f it)⟩

/-- Rust `UNITree::detach_item`, operating on the item at position `index`.
Writes happen in the order of the Rust source; `none` models a panic
(out-of-bounds index or `children.unwrap()` on a childless parent). -/
def UNITree.detach_item (t : UNITree α) (index : Nat) : Option (UNITree α) := do
  let item ← t.vec[index]?
  match item.parent with
  | none => pure t
  | some parent_index => do
    let prev_index := item.prev_sibling
    let next_index := item.next_sibling
    let t ← t.setItem index fun it =>
      { it with parent := none, prev_sibling := none, next_sibling := none }
    let t ← match prev_index with
      | some id => t.setItem id fun it => { it with next_sibling := next_index }
      | none => pure t
    let t ← match next_index with
      | some id => t.setItem id fun it => { it with prev_sibling := prev_index }
      | none => pure t
    let parent ← t.vec[parent_index]?
    let (first_index, last_index) ← parent.children
    if first_index = last_index then
      t.setItem parent_index fun p => { p with children := none }
    else if first_index = index then do
      let nxt ← next_index
      t.setItem parent_index fun p => { p with children := some (nxt, last_index) }
    else if last_index = index then do
      let prv ← prev_index
      t.setItem parent_index fun p => { p with children := some (first_index, prv) }
    else
      pure t

/-- Rust `UNITree::detach`. -/
def UNITree.detach (t : UNITree α) (index : Nat) : Option (UNITree α) := do
  let _ ← t.vec[index]?
  t.detach_item index

/-- Rust `UNITree::append(parent_index, child_index)`.  Panics (`none`) when
`parent_index == child_index`; a child already in last position is a
no-op; otherwise the child is detached and relinked at the back. -/
def UNITree.append (t : UNITree α) (parent_index child_index : Nat) :
    Option (UNITree α) := do
  if parent_index = child_index then none
  else do
    let parent ← t.vec[parent_index]?
    let last_child_index := parent.last_children
    if last_child_index = some child_index then pure t
    else do
      let _ ← t.vec[child_index]?
      let t ← t.detach_item child_index
      let t ← t.setItem child_index fun it =>
        { it with parent := some parent_index, prev_sibling := last_child_index }
      let t ← match last_child_index with
        | some idx => t.setItem idx fun it => { it with next_sibling := some child_index }
        | none => pure t
      let p ← t.vec[parent_index]?
      let children := match p.children with
        | some (f, _) => some (f, child_index)
        | none => some (child_index, child_index)
      t.setItem parent_index fun it => { it with children := children }

/-- Rust `UNITree::prepend(parent_index, child_index)`. -/
def UNITree.prepend (t : UNITree α) (parent_index child_index : Nat) :
    Option (UNITree α) := do
  if parent_index = child_index then none
  else do
    let parent ← t.vec[parent_index]?
    let first_child_index := parent.first_children
    if first_child_index = some child_index then pure t
    else do
      let _ ← t.vec[child_index]?
      let t ← t.detach_item child_index
      let t ← t.setItem child_index fun it =>
        { it with parent := some parent_index, next_sibling := first_child_index }
      let t ← match first_child_index with
        | some idx => t.setItem idx fun it => { it with prev_sibling := some child_index }
        | none => pure t
      let p ← t.vec[parent_index]?
      let children := match p.children with
        | some (_, l) => some (child_index, l)
        | none => some (child_index, child_index)
      t.setItem parent_index fun it => { it with children := children }

/-- Rust `UNITree::insert_before(index, x)`: make `x` the previous sibling
of `index`.  Panics (`none`) when `index == x`, when either position is
invalid, or when `index` is an orphan. -/
def UNITree.insert_before (t : UNITree α) (index x : Nat) : Option (UNITree α) := do
  if index = x then none
  else do
    let node ← t.vec[index]?
    let parent_index ← node.parent
    let prev_index := node.prev_sibling
    let _ ← t.vec[x]?
    let t ← t.detach_item x
    let t ← t.setItem x fun it =>
      { it with parent := some parent_index, prev_sibling := prev_index,
                next_sibling := some index }
    let t ← match prev_index with
      | some i => t.setItem i fun it => { it with next_sibling := some x }
      | none => pure t
    let t ← t.setItem index fun it => { it with prev_sibling := some x }
    let parent ← t.vec[parent_index]?
    let (f_index, l_index) ← parent.children
    if f_index = index then
      t.setItem parent_index fun p => { p with children := some (x, l_index) }
    else
      pure t

/-- Rust `UNITree::insert_after(index, x)`: make `x` the next sibling of
`index`. -/
def UNITree.insert_after (t : UNITree α) (index x : Nat) : Option (UNITree α) := do
  if index = x then none
  else do
    let node ← t.vec[index]?
    let parent_index ← node.parent
    let next_index := node.next_sibling
    let _ ← t.vec[x]?
    let t ← t.detach_item x
    let t ← t.setItem x fun it =>
      { it with parent := some parent_index, prev_sibling := some index,
                next_sibling := next_index }
    let t ← match next_index with
      | some i => t.setItem i fun it => { it with prev_sibling := some x }
      | none => pure t
    let t ← t.setItem index fun it => { it with next_sibling := some x }
    let parent ← t.vec[parent_index]?
    let (f_index, l_index) ← parent.children
    if l_index = index then
      t.setItem parent_index fun p => { p with children := some (f_index, x) }
    else
      pure t

/-- Rust `UNITree::reparent_append(new_parent, index)`: move all children of
`index` to the back of `new_parent`'s child list. -/
def UNITree.reparent_append (t : UNITree α) (new_parent index : Nat) :
    Option (UNITree α) := do
  if new_parent = index then none
  else do
    let item ← t.vec[index]?
    match item.children with
    | none => pure t
    | some child_ids => do
      let t ← t.setItem index fun it => { it with children := none }
      let t ← t.setItem child_ids.1 fun it => { it with parent := some new_parent }
      let t ← t.setItem child_ids.2 fun it => { it with parent := some new_parent }
      let parent ← t.vec[new_parent]?
      match parent.children with
      | none => t.setItem new_parent fun p => { p with children := some child_ids }
      | some old_child_ids => do
        let t ← t.setItem old_child_ids.2 fun it =>
          { it with next_sibling := some child_ids.1 }
        let t ← t.setItem child_ids.1 fun it =>
          { it with prev_sibling := some old_child_ids.2 }
        t.setItem new_parent fun p =>
          { p with children := some (old_child_ids.1, child_ids.2) }

/-- Rust `UNITree::reparent_prepend(new_parent, index)`: move all children
of `index` to the front of `new_parent`'s child list.  The two sibling
writes are exactly the ones of the Rust source (which touch
`old_child_ids.1` and `child_ids.0`). -/
def UNITree.reparent_prepend (t : UNITree α) (new_parent index : Nat) :
    Option (UNITree α) := do
  if new_parent = index then none
  else do
    let item ← t.vec[index]?
    match item.children with
    | none => pure t
    | some child_ids => do
      let t ← t.setItem index fun it => { it with children := none }
      let t ← t.setItem child_ids.1 fun it => { it with parent := some new_parent }
      let t ← t.setItem child_ids.2 fun it => { it with parent := some new_parent }
      let parent ← t.vec[new_parent]?
      match parent.children with
      | none => t.setItem new_parent fun p => { p with children := some child_ids }
      | some old_child_ids => do
        let t ← t.setItem old_child_ids.2 fun it =>
          { it with prev_sibling := some child_ids.2 }
        let t ← t.setItem child_ids.1 fun it =>
          { it with next_sibling := some old_child_ids.1 }
        t.setItem new_parent fun p =>
          { p with children := some (child_ids.1, old_child_ids.2) }

/-- The sibling-symmetry invariant of the specification: whenever an
item records a previous sibling `p`, item `p` records it back as next
sibling, and symmetrically. -/
def UNITree.siblingSymmetric (t : UNITree α) : Bool :=
  (List.range t.vec.length).all fun i =>
    match t.vec[i]? with
    | none => true
    | some it =>
      (match it.prev_sibling with
       | none => true
       | some p => (t.vec[p]?.map (·.next_sibling)) == some (some i)) &&
      (match it.next_sibling with
       | none => true
       | some n => (t.vec[n]?.map (·.prev_sibling)) == some (some i))

/-- The `k`-fold parent of position `i` (the ancestor chain). -/
def UNITree.nthParent (t : UNITree α) (k : Nat) (i : Nat) : Option Nat :=
  match k with
  | 0 => some i
  | k + 1 => (t.vec[i]?.bind (·.parent)).bind (t.nthParent k)

end Unitree

namespace UnitreeV2

/-- Rust `unitree::Index` of `src/unitree/src/lib.rs` (same `NonZeroUsize`
wrapper as `Unitree.Index`). -/
structure Index where
  val : Nat
deriving DecidableEq, Repr

/-- Rust `Index::new(n)` of `src/unitree/src/lib.rs`: stores `n + 1`. -/
def Index.new (n : Nat) : Index := ⟨n + 1⟩

/-- Rust `Index::into_usize` of `src/unitree/src/lib.rs`: `self.0.get()`
(the stored value, with no `- 1`). -/
def Index.into_usize (i : Index) : Nat := i.val

/-- Rust `Index::default()`: `Index::new(0)`. -/
def Index.default : Index := Index.new 0

/-- Rust `unitree::UNITree<T>` of `src/unitree/src/lib.rs`; only the
accessors defined in that file are modelled (it has no mutators). -/
structure UNITree (α : Type) where
  vec : List (Unitree.Item α)
deriving DecidableEq, Repr

/-- Rust `UNITree::new(root)`. -/
def UNITree.new (root : α) : UNITree α := ⟨[Unitree.Item.new root]⟩

/-- Rust `UNITree::get(index)`: `self.vec.get(index.into_usize()).cloned()`. -/
def UNITree.get (t : UNITree α) (index : Index) : Option (Unitree.Item α) :=
  t.vec[index.into_usize]?

/-- Rust `UNITree::root_index()`: `Index::default()`. -/
def UNITree.root_index : Index := Index.default

/-- Rust `UNITree::orphan(value)`: computes `Index::new(self.vec.len())`,
pushes the new item, and returns the index. -/
def UNITree.orphan (t : UNITree α) (value : α) : UNITree α × Index :=
  (⟨t.vec ++ [Unitree.Item.new value]⟩, Index.new t.vec.length)

end UnitreeV2

namespace Treedom

open Markup Unitree

/-- Rust `slice::binary_search` (returning just whether an element
comparing `Equal` was found), specialised to attribute entries; the
loop is the one of the standard library: `size`, `left`, `right`,
probing `left + size / 2`. -/
def binarySearchGo (xs : List Attr) (key : Attr) (left right : Nat) : Bool :=
  if _h : left < right then
    -- `size = right - left`, `mid = left + size / 2`
    match Attr.cmp (xs.getD (left + (right - left) / 2) ⟨⟨none, 0, 0⟩, 0⟩) key with
    | .lt => binarySearchGo xs key (left + (right - left) / 2 + 1) right
    | .gt => binarySearchGo xs key left (left + (right - left) / 2)
    | .eq => true
  else
    false
termination_by right - left
decreasing_by
  · omega
  · omega

/-- Rust `other.attrs.binary_search(x).is_ok()`. -/
def binarySearch (xs : List Attr) (key : Attr) : Bool :=
  binarySearchGo xs key 0 xs.length

/-- Rust `impl PartialEq for Element` of `src/treedom/src/data.rs` (and the
textually identical `impl PartialEq for ElementInterface` of
`src/treedom/src/interface.rs`): equal names and flags, and every
attribute of `self` found by binary search in `other.attrs`. -/
def Element.eq (a b : Element) : Bool :=
  if a.name ≠ b.name ∨ a.template ≠ b.template ∨
      a.mathml_annotation_xml_integration_point ≠
        b.mathml_annotation_xml_integration_point then
    false
  else
    a.attrs.all fun x => binarySearch b.attrs x

/-- The comparator `|a, b| a.0.cmp(&b.0)` passed to
`sort_unstable_by` in `create_element`: compare attribute entries by
qualified name only. -/
def attrNameLe (a b : Attr) : Prop := QualName.cmp a.name b.name ≠ .gt

instance : DecidableRel attrNameLe := fun a b => by
  unfold attrNameLe; infer_instance

/-- The result of `sort_unstable_by(|a, b| a.0.cmp(&b.0))`: a
permutation that is non-decreasing under the comparator (modelled by
insertion sort, which realises exactly that postcondition). -/
def sortByName (l : List Attr) : List Attr :=
  List.insertionSort attrNameLe l

/-- Rust `Vec::dedup`, tail of the scan: drop elements equal to the last
retained one. -/
def dedupGo (last : Attr) : List Attr → List Attr
  | [] => []
  | b :: rest => if b = last then dedupGo last rest else b :: dedupGo b rest

/-- Rust `Vec::dedup`: remove consecutive equal `(QualName, value)` pairs,
keeping the first of each run. -/
def dedupConsec : List Attr → List Attr
  | [] => []
  | a :: rest => a :: dedupGo a rest

/-- The attribute pipeline of `create_element` (both in
`src/src/dom/parser.rs` and `src/src/core/arcdom/treesink.rs`):
`attrs.sort_unstable_by(|a, b| a.0.cmp(&b.0)); attrs.dedup();`. -/
def createElementAttrs (attrs : List Attr) : List Attr :=
  dedupConsec (sortByName attrs)

/-- The non-strict order induced by the full-pair comparator, i.e.
`Attr::cmp(a, b) != Greater`; `binary_search` finds members of lists
sorted under this order. -/
def attrLe (a b : Attr) : Prop := Attr.cmp a b ≠ .gt

instance : DecidableRel attrLe := fun a b => by
  unfold attrLe; infer_instance

/-- Order-preserving numeric encoding of the derived `Ord` on
`Option<Atom>` (`None` before every `Some`). -/
def encOpt : Option Atom → Nat
  | none => 0
  | some x => x + 1

/-- Lexicographic comparison of equal-length `Nat` key lists — the
common shape of the derived `Ord`s used by the source (`QualName`
and attribute pairs). -/
def natLexCmp : List Nat → List Nat → Ordering
  | x :: xs, y :: ys => (natCmp x y).then (natLexCmp xs ys)
  | _, _ => .eq

/-- The comparison key of a `QualName` under its derived `Ord`. -/
def qkey (q : QualName) : List Nat := [encOpt q.pfx, q.ns, q.loc]

/-- The comparison key of an attribute pair under its derived `Ord`. -/
def akey (a : Attr) : List Nat := [encOpt a.name.pfx, a.name.ns, a.name.loc, a.value]

/-- The prefix → namespace map (`HashMap<Prefix, Namespace>`),
modelled as an association list without duplicate keys. -/
abbrev NsMap := List (Atom × Atom)

/-- Rust `HashMap::insert` (replaces any existing entry for the key). -/
def NsMap.insert (m : NsMap) (k v : Atom) : NsMap :=
  (k, v) :: m.filter fun p => p.1 != k

/-- Rust `HashMap::remove`. -/
def NsMap.remove (m : NsMap) (k : Atom) : NsMap :=
  m.filter fun p => p.1 != k

/-- Rust `HashMap::get`. -/
def NsMap.find? (m : NsMap) (k : Atom) : Option Atom :=
  (List.find? (fun p => p.1 == k) m).map fun p => p.2

/-- Rust `treedom::TreeDom`: the arena plus the tree-level state the claims
mention (the namespaces map; error list, quirks mode and line counter
are untouched by the modelled operations). -/
structure TreeDom where
  tree : UNITree NodeData
  namespaces : NsMap
deriving DecidableEq, Repr

/-- Rust `TreeDom::append(parent, child)` of `src/treedom/src/treedom.rs`:
append in the arena, then, when the child's value is an element with a
prefixed name, insert prefix → namespace into the map. -/
def TreeDom.append (dom : TreeDom) (parent child : Nat) : Option TreeDom := do
  let tree ← dom.tree.append parent child
  let val ← tree.vec[child]?
  match val.value.element? with
  | some element =>
    match element.name.pfx with
    | some p => pure { tree := tree, namespaces := dom.namespaces.insert p element.name.ns }
    | none => pure { tree := tree, namespaces := dom.namespaces }
  | none => pure { tree := tree, namespaces := dom.namespaces }

/-- Rust `TreeDom::detach(node)` of `src/treedom/src/treedom.rs`: detach in
the arena, then, when the node's value is an element with a prefixed
name, REMOVE that prefix from the map. -/
def TreeDom.detach (dom : TreeDom) (node : Nat) : Option TreeDom := do
  let tree ← dom.tree.detach node
  let val ← tree.vec[node]?
  match val.value.element? with
  | some element =>
    match element.name.pfx with
    | some p => pure { tree := tree, namespaces := dom.namespaces.remove p }
    | none => pure { tree := tree, namespaces := dom.namespaces }
  | none => pure { tree := tree, namespaces := dom.namespaces }

/-- Rust `TreeDom::orphan(value)`. -/
def TreeDom.orphan (dom : TreeDom) (value : NodeData) : TreeDom × Nat :=
  let (tree, i) := dom.tree.orphan value
  ({ dom with tree := tree }, i)

/-- Rust `TreeDom::default()`: a Document root, empty namespaces. -/
def TreeDom.default : TreeDom :=
  { tree := UNITree.new .document, namespaces := [] }

end Treedom

namespace DomParser

open Markup Unitree Treedom

/-- Rust `Parser::create_element` of `src/src/dom/parser.rs`, restricted to
the data it produces: the namespace map update and the element stored
in the fresh orphan (whose attribute list is
`createElementAttrs attrs`). -/
def create_element (tree : UNITree NodeData) (namespaces : NsMap)
    (name : QualName) (attrs : List Attr) (template mathml : Bool) :
    UNITree NodeData × NsMap × Nat :=
  let namespaces := match name.pfx with
    | some p => namespaces.insert p name.ns
    | none => namespaces
  let element : Element :=
    { name := name, attrs := createElementAttrs attrs,
      template := template, mathml_annotation_xml_integration_point := mathml }
  let (tree, index) := tree.orphan (.element element)
  (tree, namespaces, index)

/-- Rust `Parser::append_doctype_to_document` of `src/src/dom/parser.rs`:
orphan a Doctype node, then `prepend` it to the root
(`unitree::Index::default()`). -/
def append_doctype_to_document (tree : UNITree NodeData)
    (name public_id system_id : String) : Option (UNITree NodeData) :=
  let doctype : NodeData := .doctype ⟨name, public_id, system_id⟩
  let (tree, index) := tree.orphan doctype
  tree.prepend UNITree.root_index index

/-- Rust `NodeOrText` of the tree-sink interface. -/
inductive NodeOrText where
  | appendNode : Nat → NodeOrText
  | appendText : String → NodeOrText

/-- Rust `Parser::append` of `src/src/dom/parser.rs`: a node is appended as
last child; text extends a trailing Text child in place, otherwise a
fresh Text orphan is appended. -/
def append (tree : UNITree NodeData) (parent : Nat) (child : NodeOrText) :
    Option (UNITree NodeData) := do
  match child with
  | .appendNode handle => tree.append parent handle
  | .appendText text => do
    let parent_item ← tree.vec[parent]?
    match parent_item.last_children with
    | some last_index => do
      let last_child ← tree.vec[last_index]?
      match last_child.value.text? with
      | some textdata =>
        tree.setItem last_index fun it =>
          { it with value := .text ⟨textdata.contents ++ text⟩ }
      | none => do
        let (tree, text_index) := tree.orphan (.text ⟨text⟩)
        tree.append parent text_index
    | none => do
      let (tree, text_index) := tree.orphan (.text ⟨text⟩)
      tree.append parent text_index

end DomParser

namespace MatchingElement

open Markup Unitree

/-- Rust `<SelectableNode as selectors::Element>::is_empty` of
`src/matching/src/element.rs`: iterate over ALL items of the backing
tree and return `false` as soon as any item's value is a Text node;
the node's own children are never consulted. -/
def is_empty (tree : UNITree NodeData) (_self : Nat) : Bool :=
  !(tree.vec.any fun item => item.value.text?.isSome)

/-- The claim's predicate for comparison (spec words: "no child of `e`
is an Element or Text node"), evaluated over the arena links: walk the
child list of `self` and test each child's variant. -/
def childListFrom (tree : UNITree NodeData) : Nat → Option Nat → List NodeData
  | 0, _ => []
  | _, none => []
  | fuel + 1, some i =>
    match tree.vec[i]? with
    | none => []
    | some it => it.value :: childListFrom tree fuel it.next_sibling

/-- The children values of a node (fuelled by arena size, enough for
any acyclic sibling chain). -/
def childrenValues (tree : UNITree NodeData) (i : Nat) : List NodeData :=
  match tree.vec[i]? with
  | none => []
  | some it => childListFrom tree tree.vec.length it.first_children

/-- Rust `Modelled from the spec:` the is_empty predicate the claim states
("no child of e is an Element node or a Text node"); used only to
exhibit the divergence of `is_empty` above. -/
def spec_is_empty (tree : UNITree NodeData) (i : Nat) : Bool :=
  !(childrenValues tree i).any fun v => v.is_element || v.is_text

end MatchingElement

namespace Bridge

/-- Rust `markup5ever::interface::QuirksMode`. -/
inductive QuirksMode where
  | quirks
  | limitedQuirks
  | noQuirks
deriving DecidableEq, Repr

/-- Rust `QUIRKS_MODE_FULL` of `src/src/bridge/builder.rs`. -/
def QUIRKS_MODE_FULL : Nat := 0
/-- Rust `QUIRKS_MODE_LIMITED` of `src/src/bridge/builder.rs`. -/
def QUIRKS_MODE_LIMITED : Nat := 1
/-- Rust `QUIRKS_MODE_OFF` of `src/src/bridge/builder.rs`. -/
def QUIRKS_MODE_OFF : Nat := 2

/-- Rust `quirks_mode_from_u8` of `src/src/bridge/builder.rs`: `0` and `1`
map to `Quirks` and `LimitedQuirks`; EVERY other byte (the wildcard
arm) maps to `NoQuirks`.  The function is total — it has no error
path. -/
def quirks_mode_from_u8 (value : Nat) : QuirksMode :=
  if value = QUIRKS_MODE_FULL then .quirks
  else if value = QUIRKS_MODE_LIMITED then .limitedQuirks
  else .noQuirks

/-- Rust `PyRawHtmlOptions` of `src/src/bridge/builder.rs`. -/
structure PyRawHtmlOptions where
  exact_errors : Bool
  discard_bom : Bool
  profile : Bool
  iframe_srcdoc : Bool
  drop_doctype : Bool
  full_document : Bool
  quirks_mode : QuirksMode
deriving DecidableEq, Repr

/-- Rust `PyRawHtmlOptions::new`: infallible construction — the quirks byte
is converted by `quirks_mode_from_u8` and stored; no value is ever
rejected. -/
def PyRawHtmlOptions.new (full_document exact_errors discard_bom profile
    iframe_srcdoc drop_doctype : Bool) (quirks_mode : Nat) : PyRawHtmlOptions :=
  { exact_errors := exact_errors, discard_bom := discard_bom,
    profile := profile, iframe_srcdoc := iframe_srcdoc,
    drop_doctype := drop_doctype, full_document := full_document,
    quirks_mode := quirks_mode_from_u8 quirks_mode }

end Bridge

namespace Examples

open Markup Unitree Treedom

/-- C1 scenario, before the move: root `0` holding value `0` with one
child `1`; a detached node `2` with two children `3, 4`. -/
def c1Before : Option (UNITree Nat) := do
  let t := UNITree.new 0
  let (t, _) := t.orphan 1
  let t ← t.append 0 1
  let (t, _) := t.orphan 2
  let (t, _) := t.orphan 3
  let (t, _) := t.orphan 4
  let t ← t.append 2 3
  let t ← t.append 2 4
  pure t

/-- C1 scenario, after `reparent_prepend(0, 2)`: move children `3, 4`
of node `2` to the front of the root's child list `[1]`. -/
def c1After : Option (UNITree Nat) := do
  let t ← c1Before
  t.reparent_prepend 0 2

/-- C9 scenario: chain `0 → 1 → 2`, then `append(2, 1)` — placing node
`1` below its own child `2`. -/
def c9After : Option (UNITree Nat) := do
  let t := UNITree.new 0
  let (t, _) := t.orphan 1
  let (t, _) := t.orphan 2
  let t ← t.append 0 1
  let t ← t.append 1 2
  t.append 2 1

/-- C2 scenario: a document root `0` with an element child `1`, which
itself has an element child `2`; no Text node anywhere. -/
def c2Tree : Option (UNITree NodeData) := do
  let t := UNITree.new .document
  let (t, _) := t.orphan (.element ⟨⟨none, 0, 10⟩, [], false, false⟩)
  let t ← t.append 0 1
  let (t, _) := t.orphan (.element ⟨⟨none, 0, 11⟩, [], false, false⟩)
  t.append 1 2

/-- C2, second scenario: a document root `0` with an element child `1`
that has NO children, and an unrelated Text node `2` elsewhere (a
child of the root). -/
def c2TreeB : Option (UNITree NodeData) := do
  let t := UNITree.new .document
  let (t, _) := t.orphan (.element ⟨⟨none, 0, 10⟩, [], false, false⟩)
  let t ← t.append 0 1
  let (t, _) := t.orphan (.text ⟨"x"⟩)
  t.append 0 2

/-- C3 scenario: append an element named `p:div` (prefix atom `7`,
namespace atom `8`) to the root, then detach it again. -/
def c3Appended : Option TreeDom := do
  let dom := TreeDom.default
  let (dom, _) := dom.orphan (.element ⟨⟨some 7, 8, 9⟩, [], false, false⟩)
  dom.append 0 1

/-- C3 scenario after the detach. -/
def c3Detached : Option TreeDom := do
  let dom ← c3Appended
  dom.detach 1

/-- C7 scenario: the document root already has one child (a comment at
position `1`) when `append_doctype_to_document` runs. -/
def c7After : Option (UNITree NodeData) := do
  let t := UNITree.new .document
  let (t, _) := t.orphan (.comment ⟨""⟩)
  let t ← t.append 0 1
  DomParser.append_doctype_to_document t "" "" ""

/-- C5: element `a` — no attributes. -/
def c5a : Element := ⟨⟨none, 0, 1⟩, [], false, false⟩

/-- C5: element `b` — same name and flags as `c5a`, one attribute. -/
def c5b : Element := ⟨⟨none, 0, 1⟩, [⟨⟨none, 0, 2⟩, 5⟩], false, false⟩

/-- C6: a duplicated qualified name with two different values. -/
def c6q : QualName := ⟨none, 0, 3⟩

/-- C6: the attribute list handed to `create_element`: two attributes
sharing the qualified name `c6q` with different values. -/
def c6attrs : List Attr := [⟨c6q, 1⟩, ⟨c6q, 2⟩]

/-- C3 witness data: a prefixed element `7:9` in namespace `8`. -/
def c3Elem : Element := ⟨⟨some 7, 8, 9⟩, [], false, false⟩

/-- C3 witness data: a default DOM with `c3Elem` as orphan `1`. -/
def c3Dom : TreeDom := (TreeDom.default.orphan (.element c3Elem)).1

/-- C3 witness data: the DOM after `append(root, 1)`. -/
def c3DomAppended : TreeDom :=
  { tree := ⟨[{ parent := none, prev_sibling := none, next_sibling := none,
                children := some (1, 1), value := .document },
              { parent := some 0, prev_sibling := none, next_sibling := none,
                children := none, value := .element c3Elem }]⟩,
    namespaces := [(7, 8)] }

/-- C3 witness data: the DOM after the subsequent `detach(1)`. -/
def c3DomDetached : TreeDom :=
  { tree := ⟨[{ parent := none, prev_sibling := none, next_sibling := none,
                children := none, value := .document },
              { parent := none, prev_sibling := none, next_sibling := none,
                children := none, value := .element c3Elem }]⟩,
    namespaces := [] }

/-- C8 witness data: a document root with a comment orphan `1`. -/
def c8Base : UNITree NodeData := ((UNITree.new .document).orphan (.comment ⟨""⟩)).1

/-- C8 witness data: `c8Base` after appending node `1` to the root. -/
def c8NodeAfter : UNITree NodeData :=
  ⟨[{ parent := none, prev_sibling := none, next_sibling := none,
      children := some (1, 1), value := .document },
    { parent := some 0, prev_sibling := none, next_sibling := none,
      children := none, value := .comment ⟨""⟩ }]⟩

/-- C8 witness data: a document root whose last child is the Text
node `"Hel"`. -/
def c8TextBase : UNITree NodeData :=
  ⟨[{ parent := none, prev_sibling := none, next_sibling := none,
      children := some (1, 1), value := .document },
    { parent := some 0, prev_sibling := none, next_sibling := none,
      children := none, value := .text ⟨"Hel"⟩ }]⟩

/-- C8 witness data: `c8TextBase` after appending the text `"lo"` —
the two runs coalesce into one `"Hello"` Text node. -/
def c8TextAfter : UNITree NodeData :=
  ⟨[{ parent := none, prev_sibling := none, next_sibling := none,
      children := some (1, 1), value := .document },
    { parent := some 0, prev_sibling := none, next_sibling := none,
      children := none, value := .text ⟨"Hello"⟩ }]⟩

/-- C8 witness data: a childless document root after appending the
text `"Hi"` — a fresh Text node appears as the only child. -/
def c8FreshAfter : UNITree NodeData :=
  ⟨[{ parent := none, prev_sibling := none, next_sibling := none,
      children := some (1, 1), value := .document },
    { parent := some 0, prev_sibling := none, next_sibling := none,
      children := none, value := .text ⟨"Hi"⟩ }]⟩

/-- C8 witness data: `c8NodeAfter` (whose last child is a comment)
after appending the text `"Hi"` — a fresh Text node `2` is appended
after the comment. -/
def c8Fresh2After : UNITree NodeData :=
  ⟨[{ parent := none, prev_sibling := none, next_sibling := none,
      children := some (1, 2), value := .document },
    { parent := some 0, prev_sibling := none, next_sibling := some 2,
      children := none, value := .comment ⟨""⟩ },
    { parent := some 0, prev_sibling := some 1, next_sibling := none,
      children := none, value := .text ⟨"Hi"⟩ }]⟩

end Examples

/-! ## Theorems -/

section Theorems

open Markup Unitree Treedom Examples

/-- C1: the claim says that every single mutator call on a tree
satisfying the structural invariants leaves sibling pointers
symmetric.  On the concrete tree `c1Before` (root `0` with child `1`;
detached node `2` with children `3, 4`), which is symmetric, the call
`reparent_prepend(0, 2)` succeeds and leaves node `1` recording `4` as
previous sibling while node `4` records `none` as next sibling — the
symmetry is broken (the source updates `old_child_ids.1` and
`child_ids.0` where prepending requires `old_child_ids.0` and
`child_ids.1`). -/
theorem c1_reparent_prepend_breaks_sibling_symmetry :
    Examples.c1Before.map Unitree.UNITree.siblingSymmetric = some true ∧
    Examples.c1After.map Unitree.UNITree.siblingSymmetric = some false ∧
    (Examples.c1After.map fun t => t.vec[1]?.map (·.prev_sibling)) =
      some (some (some 4)) ∧
    (Examples.c1After.map fun t => t.vec[4]?.map (·.next_sibling)) =
      some (some none) := by
  refine ⟨by decide, by decide, by decide, by decide⟩

/-- C2: the claim says `is_empty(e)` holds iff no child of `e` is an
Element or Text node.  The adapter of `src/matching/src/element.rs`
instead scans every item of the whole tree for Text values: on
`c2Tree` (element `1` has an Element child, no Text anywhere) it
returns `true` where the claim requires `false`, and on `c2TreeB`
(element `1` is childless, but a Text node exists elsewhere in the
tree) it returns `false` where the claim requires `true`. -/
theorem c2_is_empty_scans_whole_tree :
    (Examples.c2Tree.map fun t =>
      (MatchingElement.is_empty t 1, MatchingElement.spec_is_empty t 1)) =
      some (true, false) ∧
    (Examples.c2TreeB.map fun t =>
      (MatchingElement.is_empty t 1, MatchingElement.spec_is_empty t 1)) =
      some (false, true) := by
  refine ⟨by decide, by decide⟩

/-- C4: in `src/unitree/src/lib.rs`, `Index::into_usize` returns the
stored `NonZeroUsize` (`n + 1`) instead of `n`: `Index::new(0)` maps
to `1`, `get(root_index)` misses the root item on a fresh tree, and
`get` applied to the index returned by `orphan` misses the item just
created.  The sibling file `src/unitree/lib.rs` subtracts `1` and
round-trips correctly for every `n`. -/
theorem c4_into_usize_off_by_one :
    UnitreeV2.Index.into_usize (UnitreeV2.Index.new 0) = 1 ∧
    (∀ n : Nat, Unitree.Index.into_usize (Unitree.Index.new n) = n) ∧
    (UnitreeV2.UNITree.new (0 : Nat)).get UnitreeV2.UNITree.root_index = none ∧
    ((UnitreeV2.UNITree.new (0 : Nat)).orphan 1).1.get
      ((UnitreeV2.UNITree.new (0 : Nat)).orphan 1).2 = none := by
  refine ⟨rfl, fun n => rfl, by decide, by decide⟩

/-- C7: the claim (and the tree-sink contract quoted in the source
comment) says the new Doctype becomes the LAST child of the document
root.  `Parser::append_doctype_to_document` of `src/src/dom/parser.rs`
calls `prepend`: starting from a root that already has a comment child
at position `1`, the fresh doctype (position `2`) ends up as the FIRST
child and the comment remains the last child. -/
theorem c7_doctype_is_prepended_not_appended :
    (Examples.c7After.map fun t => t.vec[0]?.map Unitree.Item.children) =
      some (some (some (2, 1))) ∧
    (Examples.c7After.map fun t => t.vec[2]?.map (·.value)) =
      some (some (.doctype ⟨"", "", ""⟩)) ∧
    (Examples.c7After.map fun t => t.vec[1]?.map (·.value)) =
      some (some (.comment ⟨""⟩)) := by
  refine ⟨by decide, by decide, by decide⟩

/-- C3 counterexample: the claim says no tree operation — in
particular `detach` — ever removes an entry from the prefix →
namespace map.  Appending the element `7:9` (prefix atom `7`,
namespace atom `8`) inserts `7 ↦ 8`; detaching that same node removes
the entry again. -/
theorem c3_counterexample_detach_removes_entry :
    (Examples.c3Appended.map fun d => d.namespaces.find? 7) = some (some 8) ∧
    (Examples.c3Detached.map fun d => d.namespaces.find? 7) = some none := by
  refine ⟨by decide, by decide⟩

/-- C9 counterexample: the claim says every `append` call that would
place a node in its own descendant chain is rejected, and no call ever
makes a node its own ancestor.  On the chain `0 → 1 → 2`, the call
`append(2, 1)` is NOT rejected (it returns a tree), and in the result
node `1`'s two-step parent chain leads back to node `1` itself. -/
theorem c9_counterexample_descendant_append_succeeds :
    Examples.c9After.isSome = true ∧
    (Examples.c9After.map fun t => t.nthParent 2 1) = some (some 1) ∧
    (Examples.c9After.map fun t => t.vec[1]?.map (·.parent)) =
      some (some (some 2)) ∧
    (Examples.c9After.map fun t => t.vec[2]?.map (·.parent)) =
      some (some (some 1)) := by
  refine ⟨by decide, by decide, by decide, by decide⟩

/-- C10 counterexample: the claim says a quirks byte outside `0..=2`
makes the options constructor fail with a configuration error.  The
constructor is total (it returns `PyRawHtmlOptions`, with no error
path): with byte `3` it succeeds and silently stores `NoQuirks`, and
the wildcard arm of `quirks_mode_from_u8` does the same for `255`. -/
theorem c10_counterexample_out_of_range_byte_accepted :
    Bridge.quirks_mode_from_u8 3 = .noQuirks ∧
    Bridge.quirks_mode_from_u8 255 = .noQuirks ∧
    (Bridge.PyRawHtmlOptions.new true false true false false false 3).quirks_mode
      = .noQuirks := by
  refine ⟨rfl, rfl, rfl⟩

/-- C10 amended: the construction never fails; byte `0` stores
`Quirks`, byte `1` stores `LimitedQuirks`, and every other byte
(whether `2` or out of range) stores `NoQuirks`. -/
theorem c10_amended_quirks_byte_mapping :
    ∀ (fd ee db pf ifs dd : Bool) (b : Nat),
      (Bridge.PyRawHtmlOptions.new fd ee db pf ifs dd b).quirks_mode =
        if b = 0 then .quirks else if b = 1 then .limitedQuirks else .noQuirks := by
  intro fd ee db pf ifs dd b
  simp [Bridge.PyRawHtmlOptions.new, Bridge.quirks_mode_from_u8,
    Bridge.QUIRKS_MODE_FULL, Bridge.QUIRKS_MODE_LIMITED]

/-- C9 amended: `append`/`prepend` reject (panic) exactly the case
`parent == child`, and `insert_before`/`insert_after` exactly the case
`sibling == node`; no ancestor-chain check exists, so a call that
places a node below its own descendant succeeds and can make a node
its own ancestor (witnessed by `append(2, 1)` on the chain
`0 → 1 → 2`). -/
theorem c9_amended_only_equality_rejected :
    (∀ (t : Unitree.UNITree Nat) (i : Nat), t.append i i = none) ∧
    (∀ (t : Unitree.UNITree Nat) (i : Nat), t.prepend i i = none) ∧
    (∀ (t : Unitree.UNITree Nat) (i : Nat), t.insert_before i i = none) ∧
    (∀ (t : Unitree.UNITree Nat) (i : Nat), t.insert_after i i = none) ∧
    Examples.c9After.isSome = true ∧
    (Examples.c9After.map fun t => t.nthParent 2 1) = some (some 1) := by
  refine ⟨fun t i => by simp [Unitree.UNITree.append],
         fun t i => by simp [Unitree.UNITree.prepend],
         fun t i => by simp [Unitree.UNITree.insert_before],
         fun t i => by simp [Unitree.UNITree.insert_after],
         by decide, by decide⟩

end Theorems

section OrderLemmas

open Markup Treedom

theorem natCmp_eq_iff {a b : Nat} : natCmp a b = .eq ↔ a = b := by
  unfold natCmp; split_ifs <;> simp_all <;> omega

theorem natCmp_lt_iff {a b : Nat} : natCmp a b = .lt ↔ a < b := by
  unfold natCmp; split_ifs <;> simp_all <;> omega

theorem natCmp_gt_iff {a b : Nat} : natCmp a b = .gt ↔ b < a := by
  unfold natCmp; split_ifs <;> simp_all <;> omega

theorem natCmp_swap (a b : Nat) : natCmp b a = (natCmp a b).swap := by
  unfold natCmp
  split_ifs <;> first | rfl | omega | (exfalso; omega)

theorem then_eq_right (o : Ordering) : o.then .eq = o := by
  cases o <;> rfl

theorem then_assoc (o₁ o₂ o₃ : Ordering) :
    (o₁.then o₂).then o₃ = o₁.then (o₂.then o₃) := by
  cases o₁ <;> cases o₂ <;> rfl

theorem then_swap (o₁ o₂ : Ordering) :
    (o₁.then o₂).swap = o₁.swap.then o₂.swap := by
  cases o₁ <;> cases o₂ <;> rfl

theorem then_eq_lt {o₁ o₂ : Ordering} :
    o₁.then o₂ = .lt ↔ (o₁ = .lt ∨ (o₁ = .eq ∧ o₂ = .lt)) := by
  cases o₁ <;> simp [Ordering.then]

theorem then_eq_eq {o₁ o₂ : Ordering} :
    o₁.then o₂ = .eq ↔ (o₁ = .eq ∧ o₂ = .eq) := by
  cases o₁ <;> simp [Ordering.then]

theorem optCmp_enc (p q : Option Markup.Atom) :
    optCmp p q = natCmp (encOpt p) (encOpt q) := by
  cases p <;> cases q <;> simp [optCmp, encOpt, natCmp] <;> omega

theorem natLexCmp_swap (xs ys : List Nat) :
    natLexCmp ys xs = (natLexCmp xs ys).swap := by
  induction xs generalizing ys with
  | nil => cases ys <;> rfl
  | cons x xs ih =>
    cases ys with
    | nil => rfl
    | cons y ys =>
      show (natCmp y x).then (natLexCmp ys xs) =
        ((natCmp x y).then (natLexCmp xs ys)).swap
      rw [then_swap, ← natCmp_swap, ih]

theorem natLexCmp_eq_iff {xs ys : List Nat} (h : xs.length = ys.length) :
    natLexCmp xs ys = .eq ↔ xs = ys := by
  induction xs generalizing ys with
  | nil => cases ys with
    | nil => simp [natLexCmp]
    | cons y ys => simp at h
  | cons x xs ih =>
    cases ys with
    | nil => simp at h
    | cons y ys =>
      simp only [natLexCmp, then_eq_eq, natCmp_eq_iff, List.cons.injEq]
      simp only [List.length_cons, Nat.add_right_cancel_iff] at h
      rw [ih h]

theorem natLexCmp_lt_trans {xs ys zs : List Nat} :
    natLexCmp xs ys = .lt → natLexCmp ys zs = .lt → natLexCmp xs zs = .lt := by
  induction xs generalizing ys zs with
  | nil => intro h; cases ys <;> simp [natLexCmp] at h
  | cons x xs ih =>
    intro h1 h2
    cases ys with
    | nil => simp [natLexCmp] at h1
    | cons y ys =>
      cases zs with
      | nil => simp [natLexCmp] at h2
      | cons z zs =>
        simp only [natLexCmp, then_eq_lt, natCmp_lt_iff, natCmp_eq_iff] at h1 h2 ⊢
        rcases h1 with h1 | ⟨rfl, h1⟩
        · rcases h2 with h2 | ⟨rfl, h2⟩
          · exact Or.inl (Nat.lt_trans h1 h2)
          · exact Or.inl h1
        · rcases h2 with h2 | ⟨rfl, h2⟩
          · exact Or.inl h2
          · exact Or.inr ⟨rfl, ih h1 h2⟩

theorem qualName_cmp_eq_lex (a b : QualName) :
    QualName.cmp a b = natLexCmp (qkey a) (qkey b) := by
  simp only [QualName.cmp, qkey, natLexCmp, optCmp_enc, then_eq_right]

theorem attr_cmp_eq_lex (a b : Attr) :
    Attr.cmp a b = natLexCmp (akey a) (akey b) := by
  simp only [Attr.cmp, qualName_cmp_eq_lex, akey, qkey, natLexCmp,
    then_eq_right, then_assoc]

theorem akey_inj {a b : Attr} (h : akey a = akey b) : a = b := by
  obtain ⟨⟨ap, an, al⟩, av⟩ := a
  obtain ⟨⟨bp, bn, bl⟩, bv⟩ := b
  simp only [akey, List.cons.injEq, and_true] at h
  obtain ⟨hp, hn, hl, hv⟩ := h
  cases ap <;> cases bp <;> simp_all [encOpt]

theorem qkey_inj {a b : QualName} (h : qkey a = qkey b) : a = b := by
  obtain ⟨ap, an, al⟩ := a
  obtain ⟨bp, bn, bl⟩ := b
  simp only [qkey, List.cons.injEq, and_true] at h
  obtain ⟨hp, hn, hl⟩ := h
  cases ap <;> cases bp <;> simp_all [encOpt]

theorem attrCmp_eq_iff {a b : Attr} : Attr.cmp a b = .eq ↔ a = b := by
  rw [attr_cmp_eq_lex, natLexCmp_eq_iff (by simp [akey])]
  exact ⟨akey_inj, fun h => by rw [h]⟩

theorem attrCmp_swap (a b : Attr) : Attr.cmp b a = (Attr.cmp a b).swap := by
  rw [attr_cmp_eq_lex, attr_cmp_eq_lex, natLexCmp_swap]

theorem attrCmp_lt_trans {a b c : Attr} :
    Attr.cmp a b = .lt → Attr.cmp b c = .lt → Attr.cmp a c = .lt := by
  rw [attr_cmp_eq_lex, attr_cmp_eq_lex, attr_cmp_eq_lex]
  exact natLexCmp_lt_trans

theorem attrLe_iff {a b : Attr} : attrLe a b ↔ (Attr.cmp a b = .lt ∨ a = b) := by
  unfold attrLe
  rcases h : Attr.cmp a b <;> simp_all
  · rw [← attrCmp_eq_iff, h]
  · rw [← attrCmp_eq_iff, h]; simp

theorem attrLe_trans {a b c : Attr} :
    attrLe a b → attrLe b c → attrLe a c := by
  rw [attrLe_iff, attrLe_iff, attrLe_iff]
  rintro (h1 | rfl) (h2 | rfl)
  · exact Or.inl (attrCmp_lt_trans h1 h2)
  · exact Or.inl h1
  · exact Or.inl h2
  · exact Or.inr rfl

theorem attrLe_total (a b : Attr) : attrLe a b ∨ attrLe b a := by
  unfold attrLe
  rcases h : Attr.cmp a b
  · simp
  · simp
  · rw [attrCmp_swap, h]; simp [Ordering.swap]

theorem attrLt_of_lt_of_le {a b c : Attr} (h1 : Attr.cmp a b = .lt)
    (h2 : attrLe b c) : Attr.cmp a c = .lt := by
  rcases attrLe_iff.mp h2 with h2 | rfl
  · exact attrCmp_lt_trans h1 h2
  · exact h1

theorem attrLt_of_le_of_lt {a b c : Attr} (h1 : attrLe a b)
    (h2 : Attr.cmp b c = .lt) : Attr.cmp a c = .lt := by
  rcases attrLe_iff.mp h1 with h1 | rfl
  · exact attrCmp_lt_trans h1 h2
  · exact h2

theorem attrCmp_irrefl (a : Attr) : Attr.cmp a a = .eq :=
  attrCmp_eq_iff.mpr rfl

theorem qualCmp_eq_iff {a b : QualName} : QualName.cmp a b = .eq ↔ a = b := by
  rw [qualName_cmp_eq_lex, natLexCmp_eq_iff (by simp [qkey])]
  exact ⟨qkey_inj, fun h => by rw [h]⟩

theorem qualCmp_swap (a b : QualName) :
    QualName.cmp b a = (QualName.cmp a b).swap := by
  rw [qualName_cmp_eq_lex, qualName_cmp_eq_lex, natLexCmp_swap]

theorem qualCmp_lt_trans {a b c : QualName} :
    QualName.cmp a b = .lt → QualName.cmp b c = .lt → QualName.cmp a c = .lt := by
  rw [qualName_cmp_eq_lex, qualName_cmp_eq_lex, qualName_cmp_eq_lex]
  exact natLexCmp_lt_trans

theorem attrNameLe_iff {a b : Attr} :
    attrNameLe a b ↔ (QualName.cmp a.name b.name = .lt ∨ a.name = b.name) := by
  unfold attrNameLe
  rcases h : QualName.cmp a.name b.name <;> simp_all
  · rw [← qualCmp_eq_iff, h]
  · rw [← qualCmp_eq_iff, h]; simp

theorem attrNameLe_trans {a b c : Attr} :
    attrNameLe a b → attrNameLe b c → attrNameLe a c := by
  rw [attrNameLe_iff, attrNameLe_iff, attrNameLe_iff]
  rintro (h1 | h1) (h2 | h2)
  · exact Or.inl (qualCmp_lt_trans h1 h2)
  · exact Or.inl (h2 ▸ h1)
  · exact Or.inl (h1 ▸ h2)
  · exact Or.inr (h1.trans h2)

theorem attrNameLe_total (a b : Attr) : attrNameLe a b ∨ attrNameLe b a := by
  unfold attrNameLe
  rcases h : QualName.cmp a.name b.name
  · simp
  · simp
  · rw [qualCmp_swap, h]; simp [Ordering.swap]

end OrderLemmas

section C6Lemmas

open Markup Treedom

theorem dedupGo_sublist (last : Attr) (l : List Attr) :
    (dedupGo last l).Sublist l := by
  induction l generalizing last with
  | nil => simp [dedupGo]
  | cons b rest ih =>
    unfold dedupGo
    split
    · exact (ih last).trans (List.sublist_cons_self b rest)
    · exact (ih b).cons₂ b

theorem dedupConsec_sublist (l : List Attr) : (dedupConsec l).Sublist l := by
  cases l with
  | nil => simp [dedupConsec]
  | cons a rest =>
    unfold dedupConsec
    exact (dedupGo_sublist a rest).cons₂ a

theorem mem_dedupGo_of_mem {x : Attr} (last : Attr) (l : List Attr)
    (h : x ∈ l) : x = last ∨ x ∈ dedupGo last l := by
  induction l generalizing last with
  | nil => simp at h
  | cons b rest ih =>
    unfold dedupGo
    rcases List.mem_cons.mp h with rfl | h
    · split
      · rename_i hb; exact Or.inl hb
      · exact Or.inr (List.mem_cons_self ..)
    · split
      · exact ih last h
      · rcases ih b h with rfl | h'
        · exact Or.inr (List.mem_cons_self ..)
        · exact Or.inr (List.mem_cons_of_mem _ h')

theorem mem_dedupConsec {x : Attr} {l : List Attr} :
    x ∈ dedupConsec l ↔ x ∈ l := by
  constructor
  · exact fun h => (dedupConsec_sublist l).mem h
  · intro h
    cases l with
    | nil => simp at h
    | cons a rest =>
      unfold dedupConsec
      rcases List.mem_cons.mp h with rfl | h
      · exact List.mem_cons_self ..
      · rcases mem_dedupGo_of_mem a rest h with rfl | h'
        · exact List.mem_cons_self ..
        · exact List.mem_cons_of_mem _ h'

theorem chain_dedupGo (last : Attr) (l : List Attr) :
    (last :: dedupGo last l).Chain' (fun a b => a ≠ b) := by
  induction l generalizing last with
  | nil => simp [dedupGo]
  | cons b rest ih =>
    unfold dedupGo
    split
    · exact ih last
    · rename_i hb
      exact (List.chain'_cons).mpr ⟨Ne.symm hb, ih b⟩

theorem chain_dedupConsec (l : List Attr) :
    (dedupConsec l).Chain' (fun a b => a ≠ b) := by
  cases l with
  | nil => simp [dedupConsec]
  | cons a rest =>
    unfold dedupConsec
    exact chain_dedupGo a rest

theorem sortByName_sorted (l : List Attr) :
    (sortByName l).Pairwise attrNameLe := by
  haveI : IsTotal Attr attrNameLe := ⟨attrNameLe_total⟩
  haveI : IsTrans Attr attrNameLe := ⟨fun a b c => attrNameLe_trans⟩
  exact List.sorted_insertionSort attrNameLe l

theorem mem_sortByName {x : Attr} {l : List Attr} :
    x ∈ sortByName l ↔ x ∈ l :=
  (List.perm_insertionSort attrNameLe l).mem_iff

end C6Lemmas

section C5C6Theorems

open Markup Treedom

theorem binarySearchGo_sound (xs : List Attr) (key : Attr) :
    ∀ (fuel left right : Nat), right - left ≤ fuel → right ≤ xs.length →
      binarySearchGo xs key left right = true → key ∈ xs := by
  intro fuel
  induction fuel with
  | zero =>
    intro left right hfuel _ h
    unfold binarySearchGo at h
    rw [dif_neg (by omega)] at h
    exact absurd h (by simp)
  | succ n ih =>
    intro left right hfuel hr h
    unfold binarySearchGo at h
    by_cases hlr : left < right
    · rw [dif_pos hlr] at h
      have hmidlt : left + (right - left) / 2 < xs.length := by omega
      cases hcmp : Attr.cmp (xs.getD (left + (right - left) / 2) ⟨⟨none, 0, 0⟩, 0⟩) key with
      | lt =>
        rw [hcmp] at h
        exact ih (left + (right - left) / 2 + 1) right (by omega) hr h
      | gt =>
        rw [hcmp] at h
        exact ih left (left + (right - left) / 2) (by omega) (by omega) h
      | eq =>
        have := attrCmp_eq_iff.mp hcmp
        rw [List.getD_eq_getElem xs _ hmidlt] at this
        exact this ▸ List.getElem_mem hmidlt
    · rw [dif_neg hlr] at h
      exact absurd h (by simp)

theorem binarySearchGo_complete (xs : List Attr) (key : Attr)
    (hs : xs.Pairwise attrLe) :
    ∀ (fuel left right : Nat), right - left ≤ fuel → right ≤ xs.length →
      (∃ i, left ≤ i ∧ i < right ∧ xs[i]? = some key) →
      binarySearchGo xs key left right = true := by
  intro fuel
  induction fuel with
  | zero =>
    rintro left right hfuel _ ⟨i, hi1, hi2, _⟩
    omega
  | succ n ih =>
    rintro left right hfuel hr ⟨i, hi1, hi2, hik'⟩
    obtain ⟨hilen, hik⟩ := List.getElem?_eq_some.mp hik'
    have hlr : left < right := by omega
    have hmidlt : left + (right - left) / 2 < xs.length := by omega
    unfold binarySearchGo
    rw [dif_pos hlr]
    have hpw := List.pairwise_iff_getElem.mp hs
    cases hcmp : Attr.cmp (xs.getD (left + (right - left) / 2) ⟨⟨none, 0, 0⟩, 0⟩) key with
    | lt =>
      rw [List.getD_eq_getElem xs _ hmidlt] at hcmp
      -- the witness index must lie strictly beyond the probe
      have hgt : left + (right - left) / 2 < i := by
        by_contra hle
        push_neg at hle
        rcases Nat.lt_or_ge i (left + (right - left) / 2) with hlt | hge
        · have hle' : attrLe (xs[i]) (xs[left + (right - left) / 2]) :=
            hpw i (left + (right - left) / 2) hilen hmidlt hlt
          rw [hik] at hle'
          have : Attr.cmp key key = .lt := attrLt_of_le_of_lt hle' hcmp
          rw [attrCmp_irrefl] at this
          exact absurd this (by simp)
        · have h1 : i = left + (right - left) / 2 := by omega
          have h2 : xs[left + (right - left) / 2]? = some key := h1 ▸ hik'
          rw [List.getElem?_eq_getElem hmidlt] at h2
          rw [Option.some_inj.mp h2] at hcmp
          rw [attrCmp_irrefl] at hcmp
          exact absurd hcmp (by simp)
      exact ih (left + (right - left) / 2 + 1) right (by omega) hr
        ⟨i, by omega, hi2, hik'⟩
    | gt =>
      rw [List.getD_eq_getElem xs _ hmidlt] at hcmp
      have hkeylt : Attr.cmp key (xs[left + (right - left) / 2]) = .lt := by
        have := attrCmp_swap (xs[left + (right - left) / 2]) key
        rw [hcmp] at this
        -- `this : cmp key probe = (gt).swap = lt`
        simpa [Ordering.swap] using this
      have hlt : i < left + (right - left) / 2 := by
        by_contra hge
        push_neg at hge
        rcases Nat.lt_or_ge (left + (right - left) / 2) i with hlt' | hge'
        · have hle' : attrLe (xs[left + (right - left) / 2]) (xs[i]) :=
            hpw (left + (right - left) / 2) i hmidlt hilen hlt'
          rw [hik] at hle'
          have : Attr.cmp key key = .lt := attrLt_of_lt_of_le hkeylt hle'
          rw [attrCmp_irrefl] at this
          exact absurd this (by simp)
        · have h1 : i = left + (right - left) / 2 := by omega
          have h2 : xs[left + (right - left) / 2]? = some key := h1 ▸ hik'
          rw [List.getElem?_eq_getElem hmidlt] at h2
          rw [Option.some_inj.mp h2] at hkeylt
          rw [attrCmp_irrefl] at hkeylt
          exact absurd hkeylt (by simp)
      exact ih left (left + (right - left) / 2) (by omega) (by omega)
        ⟨i, hi1, hlt, hik'⟩
    | eq => rfl

theorem binarySearch_iff_mem {xs : List Attr} {key : Attr}
    (hs : xs.Pairwise attrLe) : binarySearch xs key = true ↔ key ∈ xs := by
  constructor
  · exact fun h =>
      binarySearchGo_sound xs key xs.length 0 xs.length (by omega) le_rfl h
  · intro h
    obtain ⟨i, hilen, hik⟩ := List.getElem_of_mem h
    exact binarySearchGo_complete xs key hs xs.length 0 xs.length (by omega)
      le_rfl ⟨i, by omega, hilen, by rw [List.getElem?_eq_getElem hilen, hik]⟩

end C5C6Theorems

section ClaimsC5C6

open Markup Treedom

/-- C5 counterexample: the claim says `a == b` iff names, flags, and
the attribute MULTISETS agree — which would make equality symmetric.
With `c5a` (no attributes) and `c5b` (same name and flags, one
attribute), `c5a == c5b` holds although the attribute multisets
differ, and `c5b == c5a` fails: equality is not symmetric. -/
theorem c5_counterexample_eq_not_symmetric :
    Treedom.Element.eq Examples.c5a Examples.c5b = true ∧
    Treedom.Element.eq Examples.c5b Examples.c5a = false ∧
    Multiset.ofList Examples.c5a.attrs ≠ Multiset.ofList Examples.c5b.attrs := by
  refine ⟨by decide, ?_, by decide⟩
  simp only [Treedom.Element.eq, Treedom.binarySearch, Examples.c5a, Examples.c5b]
  unfold Treedom.binarySearchGo
  simp

/-- C5 amended: for elements whose right-hand attribute list is sorted
under the full `(QName, value)` order, `a == b` holds iff the names
and both flags agree and every attribute pair of `a` also occurs in
`b.attrs` (a one-sided subset test realised by `binary_search`);
equality is NOT required to be symmetric. -/
theorem c5_amended_eq_is_one_sided_subset_test :
    ∀ (a b : Element), b.attrs.Pairwise attrLe →
      (Treedom.Element.eq a b = true ↔
        (a.name = b.name ∧ a.template = b.template ∧
         a.mathml_annotation_xml_integration_point =
           b.mathml_annotation_xml_integration_point ∧
         ∀ x ∈ a.attrs, x ∈ b.attrs)) := by
  intro a b hs
  unfold Treedom.Element.eq
  split_ifs with hcond
  · constructor
    · intro h; exact absurd h (by simp)
    · rintro ⟨h1, h2, h3, _⟩
      rcases hcond with hc | hc | hc
      · exact absurd h1 hc
      · exact absurd h2 hc
      · exact absurd h3 hc
  · push_neg at hcond
    rw [List.all_eq_true]
    constructor
    · intro h
      exact ⟨hcond.1, hcond.2.1, hcond.2.2,
        fun x hx => (binarySearch_iff_mem hs).mp (h x hx)⟩
    · rintro ⟨_, _, _, h4⟩
      exact fun x hx => (binarySearch_iff_mem hs).mpr (h4 x hx)

/-- C5 witness: the amended equivalence applied at the concrete
element `c5b` (whose one-element attribute list is trivially sorted):
its `==` on itself evaluates to `true` through the subset
characterisation. -/
theorem c5_amended_eq_is_one_sided_subset_test_witness :
    Treedom.Element.eq Examples.c5b Examples.c5b = true :=
  (c5_amended_eq_is_one_sided_subset_test Examples.c5b Examples.c5b
    (by decide)).mpr ⟨rfl, rfl, rfl, fun x hx => hx⟩

/-- C6 counterexample: the claim says the created element holds at
most one attribute per QName, keeping the first duplicate.  Feeding
`create_element` two attributes that share the qualified name `c6q`
but carry different values keeps BOTH: `Vec::dedup` only collapses
consecutive entries that agree on the whole `(QName, value)` pair. -/
theorem c6_counterexample_duplicate_qnames_kept :
    Treedom.createElementAttrs Examples.c6attrs = Examples.c6attrs ∧
    (Treedom.createElementAttrs Examples.c6attrs).countP
      (fun a => a.name == Examples.c6q) = 2 := by
  refine ⟨by decide, by decide⟩

/-- C6 amended: for every `create_element` attribute list, the stored
sequence is sorted by QName, holds exactly the `(QName, value)` pairs
supplied by the tokenizer (as a set), and never carries two EQUAL
adjacent pairs — but attributes sharing a QName with different values
are all retained. -/
theorem c6_amended_sorted_and_pair_deduped :
    ∀ (attrs : List Attr),
      (Treedom.createElementAttrs attrs).Pairwise attrNameLe ∧
      (∀ x, x ∈ Treedom.createElementAttrs attrs ↔ x ∈ attrs) ∧
      (Treedom.createElementAttrs attrs).Chain' (fun a b => a ≠ b) := by
  intro attrs
  refine ⟨?_, ?_, ?_⟩
  · exact List.Pairwise.sublist (dedupConsec_sublist (sortByName attrs))
      (sortByName_sorted attrs)
  · intro x
    unfold Treedom.createElementAttrs
    rw [mem_dedupConsec, mem_sortByName]
  · exact chain_dedupConsec (sortByName attrs)

end ClaimsC5C6

section ClaimC3

open Markup Unitree Treedom

theorem NsMap.find?_insert (m : NsMap) (k v : Atom) :
    (m.insert k v).find? k = some v := by
  simp [NsMap.insert, NsMap.find?, List.find?]

theorem NsMap.find?_remove (m : NsMap) (k : Atom) :
    (m.remove k).find? k = none := by
  unfold NsMap.remove NsMap.find?
  have h : List.find? (fun p => p.1 == k) (List.filter (fun p => p.1 != k) m)
      = none := by
    rw [List.find?_eq_none]
    intro x hx
    have hmem := List.of_mem_filter hx
    simp only [bne_iff_ne, ne_eq] at hmem
    simp [hmem]
  rw [h]
  rfl

/-- C3 amended: `TreeDom::append` of a child whose value is an element
with a prefixed name records prefix ↦ namespace in the map, and
`TreeDom::detach` of such a node REMOVES that prefix's entry. -/
theorem c3_amended_namespaces_on_append_and_detach :
    (∀ (dom dom' : TreeDom) (parent child : Nat) (el : Element) (p : Atom),
       dom.append parent child = some dom' →
       (dom'.tree.vec[child]?.map (·.value)) = some (.element el) →
       el.name.pfx = some p →
       dom'.namespaces.find? p = some el.name.ns) ∧
    (∀ (dom dom' : TreeDom) (node : Nat) (el : Element) (p : Atom),
       dom.detach node = some dom' →
       (dom'.tree.vec[node]?.map (·.value)) = some (.element el) →
       el.name.pfx = some p →
       dom'.namespaces.find? p = none) := by
  constructor
  · intro dom dom' parent child el p happ hval hpfx
    unfold TreeDom.append at happ
    cases htree : dom.tree.append parent child with
    | none => rw [htree] at happ; simp at happ
    | some tree =>
      rw [htree] at happ
      simp only [Option.bind_eq_bind, Option.some_bind] at happ
      cases hv : tree.vec[child]? with
      | none => rw [hv] at happ; simp at happ
      | some val =>
        rw [hv] at happ
        simp only [Option.some_bind] at happ
        cases helem : val.value.element? with
        | none =>
          rw [helem] at happ
          simp only [pure, Option.some.injEq] at happ
          subst happ
          simp only [hv, Option.map_some'] at hval
          rw [Option.some_inj.mp hval] at helem
          simp [NodeData.element?] at helem
        | some element =>
          rw [helem] at happ
          dsimp only at happ
          cases hp : element.name.pfx with
          | none =>
            rw [hp] at happ
            simp only [pure, Option.some.injEq] at happ
            subst happ
            simp only [hv, Option.map_some'] at hval
            have hval' : val.value = NodeData.element el := Option.some_inj.mp hval
            rw [hval'] at helem
            simp only [NodeData.element?, Option.some.injEq] at helem
            subst helem
            rw [hp] at hpfx
            exact absurd hpfx (by simp)
          | some p' =>
            rw [hp] at happ
            simp only [pure, Option.some.injEq] at happ
            subst happ
            simp only [hv, Option.map_some'] at hval
            have hval' : val.value = NodeData.element el := Option.some_inj.mp hval
            rw [hval'] at helem
            simp only [NodeData.element?, Option.some.injEq] at helem
            subst helem
            rw [hp] at hpfx
            have hpp : p' = p := Option.some_inj.mp hpfx
            subst hpp
            exact NsMap.find?_insert dom.namespaces p' el.name.ns
  · intro dom dom' node el p hdet hval hpfx
    unfold TreeDom.detach at hdet
    cases htree : dom.tree.detach node with
    | none => rw [htree] at hdet; simp at hdet
    | some tree =>
      rw [htree] at hdet
      simp only [Option.bind_eq_bind, Option.some_bind] at hdet
      cases hv : tree.vec[node]? with
      | none => rw [hv] at hdet; simp at hdet
      | some val =>
        rw [hv] at hdet
        simp only [Option.some_bind] at hdet
        cases helem : val.value.element? with
        | none =>
          rw [helem] at hdet
          simp only [pure, Option.some.injEq] at hdet
          subst hdet
          simp only [hv, Option.map_some'] at hval
          rw [Option.some_inj.mp hval] at helem
          simp [NodeData.element?] at helem
        | some element =>
          rw [helem] at hdet
          dsimp only at hdet
          cases hp : element.name.pfx with
          | none =>
            rw [hp] at hdet
            simp only [pure, Option.some.injEq] at hdet
            subst hdet
            simp only [hv, Option.map_some'] at hval
            have hval' : val.value = NodeData.element el := Option.some_inj.mp hval
            rw [hval'] at helem
            simp only [NodeData.element?, Option.some.injEq] at helem
            subst helem
            rw [hp] at hpfx
            exact absurd hpfx (by simp)
          | some p' =>
            rw [hp] at hdet
            simp only [pure, Option.some.injEq] at hdet
            subst hdet
            simp only [hv, Option.map_some'] at hval
            have hval' : val.value = NodeData.element el := Option.some_inj.mp hval
            rw [hval'] at helem
            simp only [NodeData.element?, Option.some.injEq] at helem
            subst helem
            rw [hp] at hpfx
            have hpp : p' = p := Option.some_inj.mp hpfx
            subst hpp
            exact NsMap.find?_remove dom.namespaces p'

/-- C3 witness: the amended statement applied to the concrete DOM
`c3Dom` (a document with the prefixed orphan element `7:9` in
namespace `8`): appending it to the root yields entry `7 ↦ 8`, and
detaching it removes the entry. -/
theorem c3_amended_namespaces_on_append_and_detach_witness :
    Examples.c3Dom.append 0 1 = some Examples.c3DomAppended ∧
    Examples.c3DomAppended.namespaces.find? 7 = some 8 ∧
    Examples.c3DomAppended.detach 1 = some Examples.c3DomDetached ∧
    Examples.c3DomDetached.namespaces.find? 7 = none :=
  ⟨by decide,
   c3_amended_namespaces_on_append_and_detach.1 Examples.c3Dom
     Examples.c3DomAppended 0 1 Examples.c3Elem 7 (by decide) (by decide) rfl,
   by decide,
   c3_amended_namespaces_on_append_and_detach.2 Examples.c3DomAppended
     Examples.c3DomDetached 1 Examples.c3Elem 7 (by decide) (by decide) rfl⟩

end ClaimC3

section C8Lemmas

open Markup Unitree DomParser

theorem setItem_elim {α} {t t' : UNITree α} {i : Nat} {f : Item α → Item α}
    (h : t.setItem i f = some t') :
    ∃ it, t.vec[i]? = some it ∧ t'.vec = t.vec.set i (f it) := by
  unfold UNITree.setItem at h
  cases hv : t.vec[i]? with
  | none => rw [hv] at h; exact absurd h (by simp)
  | some it =>
    rw [hv] at h
    obtain rfl := Option.some_inj.mp h
    exact ⟨it, rfl, rfl⟩

theorem setItem_length {α} {t t' : UNITree α} {i : Nat} {f : Item α → Item α}
    (h : t.setItem i f = some t') : t'.vec.length = t.vec.length := by
  obtain ⟨it, _, hset⟩ := setItem_elim h
  rw [hset, List.length_set]

theorem setItem_get_self {α} {t t' : UNITree α} {i : Nat} {f : Item α → Item α}
    (h : t.setItem i f = some t') :
    ∃ it, t.vec[i]? = some it ∧ t'.vec[i]? = some (f it) := by
  obtain ⟨it, hv, hset⟩ := setItem_elim h
  have hlen : i < t.vec.length := (List.getElem?_eq_some.mp hv).1
  exact ⟨it, hv, by rw [hset, List.getElem?_set_self hlen]⟩

theorem setItem_get_ne {α} {t t' : UNITree α} {i j : Nat} {f : Item α → Item α}
    (h : t.setItem i f = some t') (hj : j ≠ i) : t'.vec[j]? = t.vec[j]? := by
  obtain ⟨it, _, hset⟩ := setItem_elim h
  rw [hset, List.getElem?_set_ne (Ne.symm hj)]

theorem setItem_values {α : Type} {t t' : UNITree α} {i : Nat}
    {f : Item α → Item α}
    (h : t.setItem i f = some t') (hf : ∀ it, (f it).value = it.value) :
    ∀ j : Nat, t'.vec[j]?.map (fun it : Item α => it.value) =
      t.vec[j]?.map (fun it : Item α => it.value) := by
  intro j
  by_cases hj : j = i
  · subst hj
    obtain ⟨it, hv, hself⟩ := setItem_get_self h
    rw [hself, hv, Option.map_some', Option.map_some', hf]
  · rw [setItem_get_ne h hj]

theorem setItem_links {α} {t t' : UNITree α} {i : Nat} {f : Item α → Item α}
    (h : t.setItem i f = some t')
    (hf : ∀ it : Item α, (f it).parent = it.parent ∧
      (f it).prev_sibling = it.prev_sibling ∧
      (f it).next_sibling = it.next_sibling ∧ (f it).children = it.children) :
    ∀ j : Nat, t'.vec[j]?.map
        (fun it : Item α => (it.parent, it.prev_sibling, it.next_sibling, it.children)) =
      t.vec[j]?.map
        (fun it : Item α => (it.parent, it.prev_sibling, it.next_sibling, it.children)) := by
  intro j
  by_cases hj : j = i
  · subst hj
    obtain ⟨it, hv, hself⟩ := setItem_get_self h
    obtain ⟨h1, h2, h3, h4⟩ := hf it
    rw [hself, hv, Option.map_some', Option.map_some', h1, h2, h3, h4]
  · rw [setItem_get_ne h hj]

/-- Rust `detach_item` on an item with no parent is a no-op (the early
return of the source). -/
theorem detach_item_of_no_parent {α} {t : UNITree α} {i : Nat} {it : Item α}
    (hv : t.vec[i]? = some it) (hpar : it.parent = none) :
    t.detach_item i = some t := by
  unfold UNITree.detach_item
  rw [hv]
  simp only [Option.bind_eq_bind, Option.some_bind]
  rw [hpar]
  rfl

/-- Whatever path `append` takes, the parent item of the result
records `child_index` as its last child. -/
theorem append_last_child {α} {t t' : UNITree α} {p c : Nat}
    (h : t.append p c = some t') :
    ∃ it, t'.vec[p]? = some it ∧ it.last_children = some c := by
  unfold UNITree.append at h
  by_cases hne : p = c
  · rw [if_pos hne] at h
    exact absurd h (by simp)
  · rw [if_neg hne] at h
    cases hp : t.vec[p]? with
    | none => rw [hp] at h; exact absurd h (by simp)
    | some parent =>
      rw [hp] at h
      simp only [Option.bind_eq_bind, Option.some_bind] at h
      by_cases hlast : parent.last_children = some c
      · rw [if_pos hlast] at h
        obtain rfl := Option.some_inj.mp h
        exact ⟨parent, hp, hlast⟩
      · rw [if_neg hlast] at h
        cases hcread : t.vec[c]? with
        | none => rw [hcread] at h; exact absurd h (by simp)
        | some citem =>
          rw [hcread] at h
          simp only [Option.some_bind] at h
          cases hdet : t.detach_item c with
          | none => rw [hdet] at h; exact absurd h (by simp)
          | some t1 =>
            rw [hdet] at h
            simp only [Option.some_bind] at h
            cases hs1 : t1.setItem c fun it =>
                { it with parent := some p, prev_sibling := parent.last_children } with
            | none => rw [hs1] at h; exact absurd h (by simp)
            | some t2 =>
              rw [hs1] at h
              simp only [Option.some_bind] at h
              cases hlc : parent.last_children with
              | some idx =>
                rw [hlc] at h
                simp only [Option.bind_eq_bind] at h
                cases hs2 : t2.setItem idx
                    fun it => { it with next_sibling := some c } with
                | none => rw [hs2] at h; exact absurd h (by simp)
                | some t3 =>
                  rw [hs2] at h
                  simp only [Option.some_bind] at h
                  cases hpread : t3.vec[p]? with
                  | none => rw [hpread] at h; exact absurd h (by simp)
                  | some p3 =>
                    rw [hpread] at h
                    simp only [Option.some_bind] at h
                    obtain ⟨it4, hv4, hself⟩ := setItem_get_self h
                    obtain rfl := Option.some_inj.mp (hpread ▸ hv4)
                    refine ⟨_, hself, ?_⟩
                    cases hch : p3.children with
                    | none => simp [hch, Item.last_children]
                    | some pr => cases pr; simp [hch, Item.last_children]
              | none =>
                rw [hlc] at h
                simp only [Option.pure_def, Option.some_bind] at h
                cases hpread : t2.vec[p]? with
                | none => rw [hpread] at h; exact absurd h (by simp)
                | some p3 =>
                  rw [hpread] at h
                  simp only [Option.some_bind] at h
                  obtain ⟨it4, hv4, hself⟩ := setItem_get_self h
                  obtain rfl := Option.some_inj.mp (hpread ▸ hv4)
                  refine ⟨_, hself, ?_⟩
                  cases hch : p3.children with
                  | none => simp [hch, Item.last_children]
                  | some pr => cases pr; simp [hch, Item.last_children]

end C8Lemmas

section C8Lemmas2

open Markup Unitree DomParser

/-- Appending a child that is currently an orphan never changes the
arena length nor any stored value (only link fields are written). -/
theorem append_pres_of_orphan {α : Type} {t t' : UNITree α} {p c : Nat}
    {cit : Item α}
    (hc : t.vec[c]? = some cit) (hor : cit.parent = none)
    (h : t.append p c = some t') :
    t'.vec.length = t.vec.length ∧
    (∀ j : Nat, t'.vec[j]?.map (fun it : Item α => it.value) =
      t.vec[j]?.map (fun it : Item α => it.value)) := by
  unfold UNITree.append at h
  by_cases hne : p = c
  · rw [if_pos hne] at h; exact absurd h (by simp)
  · rw [if_neg hne] at h
    cases hp : t.vec[p]? with
    | none => rw [hp] at h; exact absurd h (by simp)
    | some parent =>
      rw [hp] at h
      simp only [Option.bind_eq_bind, Option.some_bind] at h
      by_cases hlast : parent.last_children = some c
      · rw [if_pos hlast] at h
        obtain rfl := Option.some_inj.mp h
        exact ⟨rfl, fun j => rfl⟩
      · rw [if_neg hlast] at h
        rw [hc] at h
        simp only [Option.some_bind] at h
        rw [detach_item_of_no_parent hc hor] at h
        simp only [Option.some_bind] at h
        cases hs1 : t.setItem c (fun it =>
            { it with parent := some p, prev_sibling := parent.last_children }) with
        | none => rw [hs1] at h; exact absurd h (by simp)
        | some t2 =>
          rw [hs1] at h
          simp only [Option.some_bind] at h
          have len2 := setItem_length hs1
          have val2 := setItem_values hs1 (fun it => rfl)
          cases hlc : parent.last_children with
          | some idx =>
            rw [hlc] at h
            simp only [Option.bind_eq_bind] at h
            cases hs2 : t2.setItem idx (fun it =>
                { it with next_sibling := some c }) with
            | none => rw [hs2] at h; exact absurd h (by simp)
            | some t3 =>
              rw [hs2] at h
              simp only [Option.some_bind] at h
              have len3 := setItem_length hs2
              have val3 := setItem_values hs2 (fun it => rfl)
              cases hpread : t3.vec[p]? with
              | none => rw [hpread] at h; exact absurd h (by simp)
              | some p3 =>
                rw [hpread] at h
                simp only [Option.some_bind] at h
                have len4 := setItem_length h
                have val4 := setItem_values h (fun it => rfl)
                exact ⟨by rw [len4, len3, len2],
                  fun j => by rw [val4 j, val3 j, val2 j]⟩
          | none =>
            rw [hlc] at h
            simp only [Option.pure_def, Option.some_bind] at h
            cases hpread : t2.vec[p]? with
            | none => rw [hpread] at h; exact absurd h (by simp)
            | some p3 =>
              rw [hpread] at h
              simp only [Option.some_bind] at h
              have len4 := setItem_length h
              have val4 := setItem_values h (fun it => rfl)
              exact ⟨by rw [len4, len2], fun j => by rw [val4 j, val2 j]⟩

end C8Lemmas2

section ClaimC8

open Markup Unitree Treedom DomParser

/-- C8: semantics of the tree-sink `append` callback of
`src/src/dom/parser.rs`.  (1) Appending a node makes it the last child
of `parent`.  (2) Appending text when the parent's last child is a
Text node extends that node's contents in place: the arena length and
every link field are unchanged, so no new node is linked.  (3) / (4)
Appending text when the parent has no last child, or a last child that
is not a Text node, allocates a fresh Text node holding exactly the
text and makes it the last child of `parent`. -/
theorem c8_parser_append_semantics :
    (∀ (t t' : UNITree NodeData) (parent handle : Nat),
       DomParser.append t parent (.appendNode handle) = some t' →
       ∃ it, t'.vec[parent]? = some it ∧ it.last_children = some handle) ∧
    (∀ (t t' : UNITree NodeData) (parent last : Nat) (s txt : String),
       (t.vec[parent]?.map Item.last_children) = some (some last) →
       (t.vec[last]?.map (fun it => it.value)) = some (.text ⟨s⟩) →
       DomParser.append t parent (.appendText txt) = some t' →
       t'.vec.length = t.vec.length ∧
       (t'.vec[last]?.map (fun it => it.value)) = some (.text ⟨s ++ txt⟩) ∧
       (∀ j : Nat, t'.vec[j]?.map
           (fun it => (it.parent, it.prev_sibling, it.next_sibling, it.children)) =
         t.vec[j]?.map
           (fun it => (it.parent, it.prev_sibling, it.next_sibling, it.children)))) ∧
    (∀ (t t' : UNITree NodeData) (parent : Nat) (txt : String),
       (t.vec[parent]?.map Item.last_children) = some none →
       DomParser.append t parent (.appendText txt) = some t' →
       t'.vec.length = t.vec.length + 1 ∧
       (t'.vec[t.vec.length]?.map (fun it => it.value)) = some (.text ⟨txt⟩) ∧
       (∃ it, t'.vec[parent]? = some it ∧ it.last_children = some t.vec.length)) ∧
    (∀ (t t' : UNITree NodeData) (parent last : Nat) (txt : String),
       (t.vec[parent]?.map Item.last_children) = some (some last) →
       (t.vec[last]?.map (fun it => it.value.text?)) = some none →
       DomParser.append t parent (.appendText txt) = some t' →
       t'.vec.length = t.vec.length + 1 ∧
       (t'.vec[t.vec.length]?.map (fun it => it.value)) = some (.text ⟨txt⟩) ∧
       (∃ it, t'.vec[parent]? = some it ∧ it.last_children = some t.vec.length)) := by
  refine ⟨?node, ?extend, ?fresh1, ?fresh2⟩
  case node =>
    intro t t' parent handle h
    unfold DomParser.append at h
    exact append_last_child h
  case extend =>
    intro t t' parent last s txt hl ht h
    unfold DomParser.append at h
    cases hpv : t.vec[parent]? with
    | none => rw [hpv] at hl; exact absurd hl (by simp)
    | some pit =>
      rw [hpv, Option.map_some'] at hl
      have hlc : pit.last_children = some last := Option.some_inj.mp hl
      rw [hpv] at h
      simp only [Option.bind_eq_bind, Option.some_bind] at h
      rw [hlc] at h
      dsimp only at h
      cases hlv : t.vec[last]? with
      | none => rw [hlv] at ht; exact absurd ht (by simp)
      | some lit =>
        rw [hlv, Option.map_some'] at ht
        have hval : lit.value = .text ⟨s⟩ := Option.some_inj.mp ht
        rw [hlv] at h
        simp only [Option.some_bind] at h
        rw [hval] at h
        dsimp only [NodeData.text?] at h
        refine ⟨setItem_length h, ?_, setItem_links h (fun it => ⟨rfl, rfl, rfl, rfl⟩)⟩
        obtain ⟨it, hvit, hself⟩ := setItem_get_self h
        rw [hself, Option.map_some']
  case fresh1 =>
    intro t t' parent txt hl h
    unfold DomParser.append at h
    cases hpv : t.vec[parent]? with
    | none => rw [hpv] at hl; exact absurd hl (by simp)
    | some pit =>
      rw [hpv, Option.map_some'] at hl
      have hlc : pit.last_children = none := Option.some_inj.mp hl
      rw [hpv] at h
      simp only [Option.bind_eq_bind, Option.some_bind] at h
      rw [hlc] at h
      dsimp only [UNITree.orphan] at h
      have hc1 : (UNITree.mk (t.vec ++ [Item.new (NodeData.text ⟨txt⟩)])).vec[t.vec.length]? =
          some (Item.new (NodeData.text ⟨txt⟩)) := List.getElem?_concat_length _ _
      obtain ⟨hlen, hvals⟩ := append_pres_of_orphan hc1 rfl h
      refine ⟨?_, ?_, append_last_child h⟩
      · rw [hlen]; simp
      · rw [hvals t.vec.length, hc1, Option.map_some']; rfl
  case fresh2 =>
    intro t t' parent last txt hl ht h
    unfold DomParser.append at h
    cases hpv : t.vec[parent]? with
    | none => rw [hpv] at hl; exact absurd hl (by simp)
    | some pit =>
      rw [hpv, Option.map_some'] at hl
      have hlc : pit.last_children = some last := Option.some_inj.mp hl
      rw [hpv] at h
      simp only [Option.bind_eq_bind, Option.some_bind] at h
      rw [hlc] at h
      dsimp only at h
      cases hlv : t.vec[last]? with
      | none => rw [hlv] at ht; exact absurd ht (by simp)
      | some lit =>
        rw [hlv, Option.map_some'] at ht
        have hval : lit.value.text? = none := Option.some_inj.mp ht
        rw [hlv] at h
        simp only [Option.some_bind] at h
        rw [hval] at h
        dsimp only [UNITree.orphan] at h
        have hc1 : (UNITree.mk (t.vec ++ [Item.new (NodeData.text ⟨txt⟩)])).vec[t.vec.length]? =
            some (Item.new (NodeData.text ⟨txt⟩)) := List.getElem?_concat_length _ _
        obtain ⟨hlen, hvals⟩ := append_pres_of_orphan hc1 rfl h
        refine ⟨?_, ?_, append_last_child h⟩
        · rw [hlen]; simp
        · rw [hvals t.vec.length, hc1, Option.map_some']; rfl

end ClaimC8

section ClaimC8Witness

open Markup Unitree Treedom DomParser

/-- C8 witness: the four cases of the `append` semantics evaluated at
concrete trees — appending the comment node `1` makes it the root's
last child; appending `"lo"` after the Text child `"Hel"` coalesces to
`"Hello"` with the arena length unchanged; appending `"Hi"` under a
childless root, or under a root whose last child is a comment, grows
the arena by one fresh Text node that becomes the last child. -/
theorem c8_parser_append_semantics_witness :
    DomParser.append Examples.c8Base 0 (.appendNode 1) = some Examples.c8NodeAfter ∧
    (Examples.c8NodeAfter.vec[0]?.map Item.last_children) = some (some 1) ∧
    DomParser.append Examples.c8TextBase 0 (.appendText "lo") =
      some Examples.c8TextAfter ∧
    Examples.c8TextAfter.vec.length = Examples.c8TextBase.vec.length ∧
    (Examples.c8TextAfter.vec[1]?.map (fun it => it.value)) =
      some (.text ⟨"Hello"⟩) ∧
    DomParser.append (UNITree.new .document) 0 (.appendText "Hi") =
      some Examples.c8FreshAfter ∧
    Examples.c8FreshAfter.vec.length = (UNITree.new (NodeData.document)).vec.length + 1 ∧
    (Examples.c8FreshAfter.vec[1]?.map (fun it => it.value)) = some (.text ⟨"Hi"⟩) ∧
    DomParser.append Examples.c8NodeAfter 0 (.appendText "Hi") =
      some Examples.c8Fresh2After ∧
    Examples.c8Fresh2After.vec.length = Examples.c8NodeAfter.vec.length + 1 ∧
    (Examples.c8Fresh2After.vec[0]?.map Item.last_children) = some (some 2) := by
  refine ⟨by decide, ?_, by decide, ?_, ?_, by decide, ?_, ?_, by decide, ?_, ?_⟩
  · obtain ⟨it, h1, h2⟩ := c8_parser_append_semantics.1 Examples.c8Base
      Examples.c8NodeAfter 0 1 (by decide)
    rw [h1, Option.map_some', h2]
  · exact (c8_parser_append_semantics.2.1 Examples.c8TextBase Examples.c8TextAfter
      0 1 "Hel" "lo" (by decide) (by decide) (by decide)).1
  · exact (c8_parser_append_semantics.2.1 Examples.c8TextBase Examples.c8TextAfter
      0 1 "Hel" "lo" (by decide) (by decide) (by decide)).2.1
  · exact (c8_parser_append_semantics.2.2.1 (UNITree.new .document)
      Examples.c8FreshAfter 0 "Hi" (by decide) (by decide)).1
  · exact (c8_parser_append_semantics.2.2.1 (UNITree.new .document)
      Examples.c8FreshAfter 0 "Hi" (by decide) (by decide)).2.1
  · exact (c8_parser_append_semantics.2.2.2 Examples.c8NodeAfter
      Examples.c8Fresh2After 0 1 "Hi" (by decide) (by decide) (by decide)).1
  · obtain ⟨it, h1, h2⟩ := (c8_parser_append_semantics.2.2.2 Examples.c8NodeAfter
      Examples.c8Fresh2After 0 1 "Hi" (by decide) (by decide) (by decide)).2.2
    rw [h1, Option.map_some', h2]
    decide

end ClaimC8Witness
